import Mathlib

/-
Verification development for the meeting-summarizer transcript normalization
engine.  The embedded functions model, over `List Char`:

  * `parseTxtFile`  — the freeform / word-processor line parser (App.tsx),
  * `parseVttFile`  — the caption (VTT cue) parser (App.tsx),
  * `extractDate`   — the filename date-extraction cascade (src/lib/utils.ts).

JavaScript strings are modelled as lists of characters (every character in
the inputs relevant here is in the Basic Multilingual Plane, so one UTF-16
code unit corresponds to one `Char`).  The regular expressions of the source
are compiled by hand into deterministic matchers; where the original regex
engine can backtrack (greedy optional groups, counted digit groups), the
matchers try the alternatives in the engine's preference order via `<|>`
on `Option`.
-/

set_option maxHeartbeats 1000000

namespace MeetingSummarizer

/-- Characters matched by the JavaScript regex class `\s` (and removed by
`String.prototype.trim`). -/
def jsSpace (c : Char) : Bool :=
  c == ' ' || c == '\t' || c == '\n' || c == '\r' ||
  c == '\x0b' || c == '\x0c' || c == '\u00A0' || c == '\u1680' ||
  (0x2000 ≤ c.toNat && c.toNat ≤ 0x200A) ||
  c == '\u2028' || c == '\u2029' || c == '\u202F' || c == '\u205F' ||
  c == '　' || c == '\uFEFF'

/-- JavaScript `String.prototype.trim`: drop `\s` characters from both ends. -/
def jsTrim (l : List Char) : List Char :=
  ((l.dropWhile jsSpace).reverse.dropWhile jsSpace).reverse

/-- JavaScript `text.split('\n')`: split at every newline, keeping empty
pieces (`"" → [""]`, `"a\n" → ["a", ""]`). -/
def splitNl : List Char → List (List Char)
  | [] => [[]]
  | c :: rest =>
    if c = '\n' then [] :: splitNl rest
    else
      match splitNl rest with
      | l :: ls => (c :: l) :: ls
      | [] => [[c]]

/-- The `TranscriptEntry` interface of App.tsx. -/
structure TranscriptEntry where
  speaker : List Char
  startTime : List Char
  endTime : List Char
  text : List Char
deriving DecidableEq, Repr

/-- `padStart(2, '0')` of JavaScript, on a character list. -/
def padStart2 (g : List Char) : List Char :=
  List.replicate (2 - g.length) '0' ++ g

/-- `padEnd(3, '0')` of JavaScript, on a character list. -/
def padEnd3 (g : List Char) : List Char :=
  g ++ List.replicate (3 - g.length) '0'

/-- Greedy `\d{1,n}`: try the longest digit prefix first (regex preference
order), passing the captured digits and the remaining input to the
continuation `k`; on failure of the continuation, backtrack to a shorter
capture. -/
def tryDigits {α : Type} (s : List Char) (k : List Char → List Char → Option α) :
    Nat → Option α
  | 0 => none
  | j+1 =>
    (if (s.take (j+1)).length = j+1 ∧ (s.take (j+1)).all Char.isDigit then
       k (s.take (j+1)) (s.drop (j+1))
     else none) <|> tryDigits s k j

/-- `\s*` (maximal munch; in every use below the following regex token can
never match a `\s` character, so maximal munch is exact). -/
def skipSp (s : List Char) : List Char := s.dropWhile jsSpace

/-- The captured groups of one half of the loose time grammar
`(\d{1,2})\s*:\s*(\d{1,2})(?:\s*:\s*(\d{1,2}))?(?:\.(\d{1,3}))?`. -/
abbrev TimeGroups := List Char × List Char × Option (List Char) × Option (List Char)

/-- Greedy optional group `(?:\s*:\s*(\d{1,2}))?`: first try to match it,
falling back to the empty match if the continuation fails. -/
def optColonDigits {α : Type} (s : List Char)
    (k : Option (List Char) → List Char → Option α) : Option α :=
  (match skipSp s with
   | ':' :: rest => tryDigits (skipSp rest) (fun g r => k (some g) r) 2
   | _ => none) <|> k none s

/-- Greedy optional group `(?:\.(\d{1,3}))?`. -/
def optDotMs {α : Type} (s : List Char)
    (k : Option (List Char) → List Char → Option α) : Option α :=
  (match s with
   | '.' :: rest => tryDigits rest (fun g r => k (some g) r) 3
   | _ => none) <|> k none s

/-- One half of the time grammar, in continuation style (the continuation
receives the four captured groups and the rest of the input). -/
def timeHalf {α : Type} (s : List Char)
    (k : TimeGroups → List Char → Option α) : Option α :=
  tryDigits s (fun g1 r1 =>
    match skipSp r1 with
    | ':' :: r2 =>
      tryDigits (skipSp r2) (fun g2 r3 =>
        optColonDigits r3 (fun g3 r4 =>
          optDotMs r4 (fun g4 r5 => k (g1, g2, g3, g4) r5))) 2
    | _ => none) 2

/-- The separator class `[\-~〜\s　]` of the time-range regex. -/
def rangeSep (c : Char) : Bool :=
  c == '-' || c == '~' || c == '〜' || jsSpace c || c == '　'

/-- Anchored match of the two-timestamp range regex of `parseTxtFile`;
returns both halves' groups and the input remaining after the match. -/
def timeRangeMatch (s : List Char) : Option (TimeGroups × TimeGroups × List Char) :=
  timeHalf s (fun gl r =>
    match r with
    | c :: _ =>
      if rangeSep c then
        timeHalf (r.dropWhile rangeSep) (fun gr rest => some (gl, gr, rest))
      else none
    | [] => none)

/-- Anchored match of the single-timestamp regex of `parseTxtFile`. -/
def timeSingleMatch (s : List Char) : Option (TimeGroups × List Char) :=
  timeHalf s (fun g r => some (g, r))

/-- Formatting of one matched time, exactly as in `parseTxtFile`: the third
group decides whether the first two groups are hour:minute or minute:second
(component count determines field assignment); a missing millisecond group
defaults to `"000"`, a short one is right-padded. -/
def fmtTime (g : TimeGroups) : List Char :=
  let h := match g.2.2.1 with | some _ => g.1 | none => ['0', '0']
  let m := match g.2.2.1 with | some _ => g.2.1 | none => g.1
  let s := match g.2.2.1 with | some g3 => g3 | none => g.2.1
  let ms := match g.2.2.2 with | some g4 => padEnd3 g4 | none => ['0', '0', '0']
  padStart2 h ++ ':' :: padStart2 m ++ ':' :: padStart2 s ++ '.' :: ms

/-- The `startTime`/`endTime` computation of `parseTxtFile`: try the range
regex, fall back to the single-timestamp regex, else leave both empty. -/
def resolveTime (content : List Char) : List Char × List Char :=
  match timeRangeMatch content with
  | some (gl, gr, _) => (fmtTime gl, fmtTime gr)
  | none =>
    match timeSingleMatch content with
    | some (g, _) => (fmtTime g, [])
    | none => ([], [])

/-- `content.replace(rangeRegex, '').replace(singleRegex, '').trim()` of
`parseTxtFile` (both regexes are anchored, so each replace removes a matched
prefix, if any). -/
def stripTimes (content : List Char) : List Char :=
  let c1 := match timeRangeMatch content with
    | some (_, _, r) => r
    | none => content
  let c2 := match timeSingleMatch c1 with
    | some (_, r) => r
    | none => c1
  jsTrim c2

/-- Characters matched by `.` in the JavaScript regexes (everything except
line terminators). -/
def dotOk (c : Char) : Bool :=
  !(c == '\n' || c == '\r' || c == '\u2028' || c == '\u2029')

/-- Test whether `\s+\d{1,2}\s*:\s*\d{1,2}` matches at the head of `s`
(the part of speaker regex 1 after the lazy group; all steps are
deterministic because the relevant character classes are disjoint). -/
def r1Tail : List Char → Bool
  | [] => false
  | c :: rest =>
    jsSpace c &&
    (let s1 := rest.dropWhile jsSpace
     let ds := s1.takeWhile Char.isDigit
     let s2 := s1.dropWhile Char.isDigit
     (ds.length == 1 || ds.length == 2) &&
     (match s2.dropWhile jsSpace with
      | ':' :: s3 =>
        (match s3.dropWhile jsSpace with
         | d :: _ => d.isDigit
         | [] => false)
      | _ => false))

/-- The separator class `[\s:：]` of speaker regex 2. -/
def sepChar (c : Char) : Bool := jsSpace c || c == ':' || c == '：'

/-- Test whether `[\s:：]+` matches at the head of `s`. -/
def r2Tail : List Char → Bool
  | c :: _ => sepChar c
  | [] => false

/-- Search for the shortest split of the lazy group `(.+?)`: the smallest
`k ≥ 1` such that the first `k` characters are all matched by `.` and the
tail predicate holds on the rest. -/
def splitFrom (p : List Char → Bool) (l : List Char) : Nat → Nat → Option Nat
  | _, 0 => none
  | k, fuel+1 =>
    if (l.take k).all dotOk && p (l.drop k) then some k
    else splitFrom p l (k+1) fuel

/-- Lazy-group split search starting at group length 1. -/
def lazySplit (p : List Char → Bool) (l : List Char) : Option Nat :=
  splitFrom p l 1 l.length

/-- Speaker extraction of `parseTxtFile`: regex
`^(.+?)\s+\d{1,2}\s*:\s*\d{1,2}` first, then `^(.+?)[\s:：]+`; returns the
length of capture group 1 (the only thing the source uses). -/
def speakerSplit (l : List Char) : Option Nat :=
  lazySplit r1Tail l <|> lazySplit r2Tail l

/-- The continuation branch of `parseTxtFile`: append the line's text to the
last entry, or start an unattributed entry when there is none. -/
def appendLast : List TranscriptEntry → List Char → List TranscriptEntry
  | [], l => [⟨[], [], [], l⟩]
  | [e], l => [{ e with text := e.text ++ l }]
  | e :: es, l => e :: appendLast es l

/-- The per-line body of `parseTxtFile`'s loop (the line is already
trimmed). -/
def processTxtLine (acc : List TranscriptEntry) (line : List Char) :
    List TranscriptEntry :=
  match speakerSplit line with
  | some k =>
    let speaker := jsTrim (line.take k)
    let content := jsTrim (line.drop k)
    acc ++ [⟨speaker, (resolveTime content).1, (resolveTime content).2,
            stripTimes content⟩]
  | none => appendLast acc line

/-- `parseTxtFile` of App.tsx, on the decoded text: split into lines, drop
blank lines, then run the per-line state machine. -/
def parseTxtFile (text : List Char) : List TranscriptEntry :=
  ((splitNl text).filter (fun l => !(jsTrim l).isEmpty)).foldl
    (fun acc l => processTxtLine acc (jsTrim l)) []

/-- Maximal digit run and the remainder (`\d+`, whose follower below is
never a digit). -/
def digitRun (s : List Char) : List Char × List Char :=
  (s.takeWhile Char.isDigit, s.dropWhile Char.isDigit)

/-- Anchored match of one VTT timestamp `\d+:\d+:\d+\.\d+`; returns the
matched substring verbatim (as the source captures it) and the rest. -/
def vttStamp (s : List Char) : Option (List Char × List Char) :=
  match digitRun s with
  | (d1, r1) =>
    if d1.isEmpty then none else
    match r1 with
    | ':' :: r2 =>
      (match digitRun r2 with
       | (d2, r3) =>
         if d2.isEmpty then none else
         match r3 with
         | ':' :: r4 =>
           (match digitRun r4 with
            | (d3, r5) =>
              if d3.isEmpty then none else
              match r5 with
              | '.' :: r6 =>
                (match digitRun r6 with
                 | (d4, r7) =>
                   if d4.isEmpty then none else
                   some (d1 ++ ':' :: d2 ++ ':' :: d3 ++ '.' :: d4, r7))
              | _ => none)
         | _ => none)
    | _ => none

/-- Anchored match of the cue-time regex
`(\d+:\d+:\d+\.\d+)\s+-->\s+(\d+:\d+:\d+\.\d+)`; returns the two captured
timestamps. -/
def vttTimePair (s : List Char) : Option (List Char × List Char) :=
  match vttStamp s with
  | none => none
  | some (g1, r1) =>
    match r1 with
    | c :: _ =>
      if jsSpace c then
        match r1.dropWhile jsSpace with
        | '-' :: '-' :: '>' :: r3 =>
          (match r3 with
           | c2 :: _ =>
             if jsSpace c2 then
               match vttStamp (r3.dropWhile jsSpace) with
               | some (g2, _) => some (g1, g2)
               | none => none
             else none
           | [] => none)
        | _ => none
      else none
    | [] => none

/-- Unanchored (leftmost) search with the cue-time regex, as
`String.prototype.match` performs it. -/
def searchVttTime : List Char → Option (List Char × List Char)
  | [] => none
  | c :: rest =>
    match vttTimePair (c :: rest) with
    | some p => some p
    | none => searchVttTime rest

/-- `line.includes('-->')`. -/
def containsArrow : List Char → Bool
  | [] => false
  | c :: rest =>
    (match c :: rest with
     | '-' :: '-' :: '>' :: _ => true
     | _ => false) || containsArrow rest

/-- Anchored match of the speaker-tag regex `<v\s+([^>]+)>`: after `<v` the
greedy `\s+` takes the maximal whitespace run; the greedy `[^>]+` then needs
at least one character before the closing `>`, and when the character right
after the whitespace is already `>` the engine backtracks one whitespace
character into the capture group.  Returns the capture and the input after
the whole match. -/
def vTagAt (s : List Char) : Option (List Char × List Char) :=
  match s with
  | '<' :: 'v' :: r1 =>
    (match r1 with
     | c :: _ =>
       if jsSpace c then
         if ((r1.dropWhile jsSpace).takeWhile (fun d => !(d == '>'))).isEmpty = false then
           match (r1.dropWhile jsSpace).dropWhile (fun d => !(d == '>')) with
           | '>' :: r4 =>
             some ((r1.dropWhile jsSpace).takeWhile (fun d => !(d == '>')), r4)
           | _ => none
         else
           match (r1.dropWhile jsSpace).dropWhile (fun d => !(d == '>')) with
           | '>' :: r4 =>
             if 2 ≤ (r1.takeWhile jsSpace).length then
               some ((r1.takeWhile jsSpace).drop ((r1.takeWhile jsSpace).length - 1), r4)
             else none
           | _ => none
       else none
     | [] => none)
  | _ => none

/-- Unanchored (leftmost) search with the speaker-tag regex. -/
def findVTag : List Char → Option (List Char)
  | [] => none
  | c :: rest =>
    match vTagAt (c :: rest) with
    | some (g, _) => some g
    | none => findVTag rest

/-- One pass of the global replace
`contentLine.replace(/<v\s+[^>]+>|<\/v>/g, '')`, with fuel (every removal
consumes at least one character, so `s.length` fuel suffices). -/
def vttStripGo : Nat → List Char → List Char
  | 0, s => s
  | _+1, [] => []
  | fuel+1, c :: rest =>
    match vTagAt (c :: rest) with
    | some (_, r) => vttStripGo fuel r
    | none =>
      match c :: rest with
      | '<' :: '/' :: 'v' :: '>' :: r => vttStripGo fuel r
      | _ => c :: vttStripGo fuel rest

/-- Global removal of speaker-tag markup from a cue payload line. -/
def vttStrip (s : List Char) : List Char := vttStripGo s.length s

/-- Building the entry for one cue, as `parseVttFile` does: extract the
inline speaker tag, defaulting to the unknown-speaker sentinel `不明`, and
strip tag markup from the payload only when a tag was found. -/
def cueEntryOf (st en contentLine : List Char) : TranscriptEntry :=
  match findVTag contentLine with
  | some g => ⟨g, st, en, jsTrim (vttStrip contentLine)⟩
  | none => ⟨('不' :: '明' :: []), st, en, contentLine⟩

/-- The push-or-merge step of `parseVttFile`: if the immediately preceding
entry has the same speaker, extend its end time and append the text,
otherwise push a new entry. -/
def mergePush (acc : List TranscriptEntry) (e : TranscriptEntry) :
    List TranscriptEntry :=
  match acc.getLast? with
  | some last =>
    if last.speaker = e.speaker then
      acc.dropLast ++ [{ last with endTime := e.endTime, text := last.text ++ e.text }]
    else acc ++ [e]
  | none => acc ++ [e]

/-- The cue loop of `parseVttFile`: on a line containing `-->` whose
cue-time regex matches, the next line is consumed as the cue payload (a cue
on the final line, with no payload line after it, is dropped). -/
def vttLoop : List (List Char) → List TranscriptEntry → List TranscriptEntry
  | [], acc => acc
  | [_], acc => acc
  | l1 :: l2 :: rest, acc =>
    let line := jsTrim l1
    if containsArrow line then
      match searchVttTime line with
      | some (st, en) => vttLoop rest (mergePush acc (cueEntryOf st en (jsTrim l2)))
      | none => vttLoop (l2 :: rest) acc
    else vttLoop (l2 :: rest) acc

/-- `parseVttFile` of App.tsx: skip header lines up to the first line
containing `-->`, then run the cue loop. -/
def parseVttFile (text : List Char) : List TranscriptEntry :=
  vttLoop ((splitNl text).dropWhile (fun l => !containsArrow l)) []

/-- Unanchored (leftmost) regex search: try the anchored matcher at every
position, taking the leftmost success. -/
def searchAt {α : Type} (f : List Char → Option α) : List Char → Option α
  | [] => f []
  | c :: rest =>
    match f (c :: rest) with
    | some a => some a
    | none => searchAt f rest

/-- Anchored `\d{4}`: exactly four digit characters (a fifth digit after
them is allowed, the regex just does not consume it). -/
def d4At (s : List Char) : Option (List Char × List Char) :=
  match s with
  | a :: b :: c :: d :: r =>
    if a.isDigit && b.isDigit && c.isDigit && d.isDigit then
      some ([a, b, c, d], r)
    else none
  | _ => none

/-- Anchored `(\d{4})sep(\d{1,2})sep(\d{1,2})` (date patterns 1-3). -/
def ymdSepAt (sep : Char) (s : List Char) : Option (List Char × List Char × List Char) :=
  match d4At s with
  | none => none
  | some (y, r1) =>
    match r1 with
    | c :: r2 =>
      if c = sep then
        tryDigits r2 (fun m r3 =>
          match r3 with
          | c2 :: r4 =>
            if c2 = sep then tryDigits r4 (fun d _ => some (y, m, d)) 2
            else none
          | [] => none) 2
      else none
    | [] => none

/-- Anchored `(\d{4})(\d{2})(\d{2})` (date pattern 4). -/
def d8At (s : List Char) : Option (List Char × List Char × List Char) :=
  match s with
  | a :: b :: c :: d :: e :: f :: g :: h :: _ =>
    if a.isDigit && b.isDigit && c.isDigit && d.isDigit &&
       e.isDigit && f.isDigit && g.isDigit && h.isDigit then
      some ([a, b, c, d], [e, f], [g, h])
    else none
  | _ => none

/-- Anchored `(\d{4})年(\d{1,2})月(\d{1,2})日` (date pattern 5). -/
def kanjiYmdAt (s : List Char) : Option (List Char × List Char × List Char) :=
  match d4At s with
  | none => none
  | some (y, r1) =>
    match r1 with
    | '年' :: r2 =>
      tryDigits r2 (fun m r3 =>
        match r3 with
        | '月' :: r4 =>
          tryDigits r4 (fun d r5 =>
            match r5 with
            | '日' :: _ => some (y, m, d)
            | _ => none) 2
        | _ => none) 2
    | _ => none

/-- Anchored `(\d{2})(\d{2})(\d{2})` (date pattern 6). -/
def d6At (s : List Char) : Option (List Char × List Char × List Char) :=
  match s with
  | a :: b :: c :: d :: e :: f :: _ =>
    if a.isDigit && b.isDigit && c.isDigit && d.isDigit &&
       e.isDigit && f.isDigit then
      some ([a, b], [c, d], [e, f])
    else none
  | _ => none

/-- Anchored `(\d{1,2})sep(\d{1,2})` (date patterns 7-9). -/
def mdSepAt (sep : Char) (s : List Char) : Option (List Char × List Char) :=
  tryDigits s (fun m r1 =>
    match r1 with
    | c :: r2 =>
      if c = sep then tryDigits r2 (fun d _ => some (m, d)) 2
      else none
    | [] => none) 2

/-- Anchored `(\d{1,2})月(\d{1,2})日` (date pattern 10). -/
def kanjiMdAt (s : List Char) : Option (List Char × List Char) :=
  tryDigits s (fun m r1 =>
    match r1 with
    | '月' :: r2 =>
      tryDigits r2 (fun d r3 =>
        match r3 with
        | '日' :: _ => some (m, d)
        | _ => none) 2
    | _ => none) 2

/-- Template `${y}-${m.padStart(2,'0')}-${d.padStart(2,'0')}`. -/
def fmtDate (y m d : List Char) : List Char :=
  y ++ '-' :: padStart2 m ++ '-' :: padStart2 d

/-- Template `${currentYear}-${m.padStart(2,'0')}-${d.padStart(2,'0')}`. -/
def fmtDateY (currentYear : Nat) (m d : List Char) : List Char :=
  (toString currentYear).data ++ '-' :: padStart2 m ++ '-' :: padStart2 d

/-- `extractDate` of src/lib/utils.ts: the ordered cascade of ten regex
attempts against the filename; `new Date().getFullYear()` is modelled by
the `currentYear` parameter. -/
def extractDate (currentYear : Nat) (fileName : List Char) : Option (List Char) :=
  match searchAt (ymdSepAt '-') fileName with
  | some (y, m, d) => some (fmtDate y m d)
  | none =>
  match searchAt (ymdSepAt '_') fileName with
  | some (y, m, d) => some (fmtDate y m d)
  | none =>
  match searchAt (ymdSepAt '.') fileName with
  | some (y, m, d) => some (fmtDate y m d)
  | none =>
  match searchAt d8At fileName with
  | some (y, m, d) => some (y ++ '-' :: m ++ '-' :: d)
  | none =>
  match searchAt kanjiYmdAt fileName with
  | some (y, m, d) => some (fmtDate y m d)
  | none =>
  match searchAt d6At fileName with
  | some (y, m, d) => some ('2' :: '0' :: y ++ '-' :: m ++ '-' :: d)
  | none =>
  match searchAt (mdSepAt '-') fileName with
  | some (m, d) => some (fmtDateY currentYear m d)
  | none =>
  match searchAt (mdSepAt '_') fileName with
  | some (m, d) => some (fmtDateY currentYear m d)
  | none =>
  match searchAt (mdSepAt '.') fileName with
  | some (m, d) => some (fmtDateY currentYear m d)
  | none =>
  match searchAt kanjiMdAt fileName with
  | some (m, d) => some (fmtDateY currentYear m d)
  | none => none

/-- The canonical-time predicate of the specification: exactly 12
characters, `HH:MM:SS.mmm`, ASCII digits with two-digit hour, minute and
second and three-digit millisecond. -/
def isCanonicalTime : List Char → Bool
  | [h1, h2, c1, m1, m2, c2, s1, s2, d1, x1, x2, x3] =>
    h1.isDigit && h2.isDigit && (c1 == ':') && m1.isDigit && m2.isDigit &&
    (c2 == ':') && s1.isDigit && s2.isDigit && (d1 == '.') &&
    x1.isDigit && x2.isDigit && x3.isDigit
  | _ => false

/-- Concatenation of all `text` fields of a parse, in order (the observable
of the idempotence property in the specification). -/
def concatTexts (es : List TranscriptEntry) : List Char :=
  (es.map TranscriptEntry.text).flatten

/-- Reading of the specification's phrase "the original document with blank
lines removed": drop the blank lines but keep the remaining lines joined by
line breaks.  This follows the spec's words, for comparison with what the
parser actually produces. -/
def specBlankLinesRemoved (text : List Char) : List Char :=
  List.intercalate ['\n'] ((splitNl text).filter (fun l => !(jsTrim l).isEmpty))

/-- What a capture of `\d{1,n}` satisfies. -/
def digitsUpTo (n : Nat) (g : List Char) : Prop :=
  1 ≤ g.length ∧ g.length ≤ n ∧ g.all Char.isDigit = true

/-- What the capture of an optional digit group satisfies. -/
def optCapture (n : Nat) : Option (List Char) → Prop
  | none => True
  | some g => digitsUpTo n g

/-- What the four captures of one time half satisfy. -/
def goodGroups (g : TimeGroups) : Prop :=
  digitsUpTo 2 g.1 ∧ digitsUpTo 2 g.2.1 ∧
  optCapture 2 g.2.2.1 ∧ optCapture 3 g.2.2.2

/-! ### Helper lemmas about the backtracking matchers -/

theorem orElse_eq_some_split {α : Type} {o f : Option α} {a : α}
    (h : (o <|> f) = some a) : o = some a ∨ (o = none ∧ f = some a) := by
  cases o with
  | none => exact Or.inr ⟨rfl, h⟩
  | some x => exact Or.inl h

theorem tryDigits_eq_some {α : Type} {s : List Char}
    {k : List Char → List Char → Option α} {a : α} :
    ∀ {n : Nat}, tryDigits s k n = some a →
      ∃ g r, digitsUpTo n g ∧ k g r = some a := by
  intro n
  induction n with
  | zero => intro h; exact absurd h (by simp [tryDigits])
  | succ j ih =>
    intro h
    rcases orElse_eq_some_split h with h1 | ⟨-, h2⟩
    · by_cases hc : (s.take (j+1)).length = j+1 ∧ (s.take (j+1)).all Char.isDigit
      · rw [if_pos hc] at h1
        refine ⟨s.take (j+1), s.drop (j+1), ⟨?_, ?_, hc.2⟩, h1⟩
        · rw [hc.1]; omega
        · rw [hc.1]
      · rw [if_neg hc] at h1; exact absurd h1 (by simp)
    · obtain ⟨g, r, hg, hk⟩ := ih h2
      exact ⟨g, r, ⟨hg.1, Nat.le_succ_of_le hg.2.1, hg.2.2⟩, hk⟩

theorem optColonDigits_eq_some {α : Type} {s : List Char}
    {k : Option (List Char) → List Char → Option α} {a : α}
    (h : optColonDigits s k = some a) :
    ∃ g r, optCapture 2 g ∧ k g r = some a := by
  unfold optColonDigits at h
  rcases orElse_eq_some_split h with h1 | ⟨-, h2⟩
  · split at h1
    · obtain ⟨g, r, hg, hk⟩ := tryDigits_eq_some h1
      exact ⟨some g, r, hg, hk⟩
    · exact absurd h1 (by simp)
  · exact ⟨none, s, trivial, h2⟩

theorem optDotMs_eq_some {α : Type} {s : List Char}
    {k : Option (List Char) → List Char → Option α} {a : α}
    (h : optDotMs s k = some a) :
    ∃ g r, optCapture 3 g ∧ k g r = some a := by
  unfold optDotMs at h
  rcases orElse_eq_some_split h with h1 | ⟨-, h2⟩
  · split at h1
    · obtain ⟨g, r, hg, hk⟩ := tryDigits_eq_some h1
      exact ⟨some g, r, hg, hk⟩
    · exact absurd h1 (by simp)
  · exact ⟨none, s, trivial, h2⟩

theorem timeHalf_eq_some {α : Type} {s : List Char}
    {k : TimeGroups → List Char → Option α} {a : α}
    (h : timeHalf s k = some a) :
    ∃ g r, goodGroups g ∧ k g r = some a := by
  unfold timeHalf at h
  obtain ⟨g1, r1, hg1, h1⟩ := tryDigits_eq_some h
  split at h1
  · obtain ⟨g2, r3, hg2, h2⟩ := tryDigits_eq_some h1
    obtain ⟨g3, r4, hg3, h3⟩ := optColonDigits_eq_some h2
    obtain ⟨g4, r5, hg4, h4⟩ := optDotMs_eq_some h3
    exact ⟨(g1, g2, g3, g4), r5, ⟨hg1, hg2, hg3, hg4⟩, h4⟩
  · exact absurd h1 (by simp)

theorem timeSingleMatch_eq_some {s : List Char} {g : TimeGroups} {r : List Char}
    (h : timeSingleMatch s = some (g, r)) : goodGroups g := by
  unfold timeSingleMatch at h
  obtain ⟨g', r', hg, hk⟩ := timeHalf_eq_some h
  simp only [Option.some.injEq, Prod.mk.injEq] at hk
  obtain ⟨rfl, rfl⟩ := hk
  exact hg

theorem timeRangeMatch_eq_some {s : List Char} {gl gr : TimeGroups} {r : List Char}
    (h : timeRangeMatch s = some (gl, gr, r)) : goodGroups gl ∧ goodGroups gr := by
  unfold timeRangeMatch at h
  obtain ⟨g, r1, hg, hk⟩ := timeHalf_eq_some h
  split at hk
  · split at hk
    · obtain ⟨g2, r2, hg2, hk2⟩ := timeHalf_eq_some hk
      simp only [Option.some.injEq, Prod.mk.injEq] at hk2
      obtain ⟨rfl, rfl, rfl⟩ := hk2
      exact ⟨hg, hg2⟩
    · exact absurd hk (by simp)
  · exact absurd hk (by simp)

theorem padStart2_digits {g : List Char} (hg : digitsUpTo 2 g) :
    ∃ a b, padStart2 g = [a, b] ∧ a.isDigit = true ∧ b.isDigit = true := by
  obtain ⟨h1, h2, h3⟩ := hg
  rcases g with _ | ⟨x, _ | ⟨y, _ | ⟨z, t⟩⟩⟩
  · simp at h1
  · refine ⟨'0', x, rfl, by decide, ?_⟩
    simpa using h3
  · simp only [List.all_cons, List.all_nil, Bool.and_true, Bool.and_eq_true] at h3
    exact ⟨x, y, rfl, h3.1, h3.2⟩
  · simp at h2

theorem padEnd3_digits {g : List Char} (hg : digitsUpTo 3 g) :
    ∃ a b c, padEnd3 g = [a, b, c] ∧
      a.isDigit = true ∧ b.isDigit = true ∧ c.isDigit = true := by
  obtain ⟨h1, h2, h3⟩ := hg
  rcases g with _ | ⟨x, _ | ⟨y, _ | ⟨z, _ | ⟨w, t⟩⟩⟩⟩
  · simp at h1
  · refine ⟨x, '0', '0', rfl, ?_, by decide, by decide⟩
    simpa using h3
  · simp only [List.all_cons, List.all_nil, Bool.and_true, Bool.and_eq_true] at h3
    exact ⟨x, y, '0', rfl, h3.1, h3.2, by decide⟩
  · simp only [List.all_cons, List.all_nil, Bool.and_true, Bool.and_eq_true] at h3
    exact ⟨x, y, z, rfl, h3.1, h3.2.1, h3.2.2⟩
  · simp at h2

theorem isCanonical_build {a b c d e f m1 m2 m3 : Char}
    (ha : a.isDigit = true) (hb : b.isDigit = true) (hc : c.isDigit = true)
    (hd : d.isDigit = true) (he : e.isDigit = true) (hf : f.isDigit = true)
    (hm1 : m1.isDigit = true) (hm2 : m2.isDigit = true) (hm3 : m3.isDigit = true) :
    isCanonicalTime ([a, b] ++ ':' :: [c, d] ++ ':' :: [e, f] ++ '.' :: [m1, m2, m3]) = true := by
  simp [isCanonicalTime, ha, hb, hc, hd, he, hf, hm1, hm2, hm3]

theorem fmtTime_canonical {g : TimeGroups} (hg : goodGroups g) :
    isCanonicalTime (fmtTime g) = true := by
  obtain ⟨g1, g2, g3, g4⟩ := g
  obtain ⟨h1, h2, h3, h4⟩ := hg
  obtain ⟨a1, a2, pa, da1, da2⟩ := padStart2_digits h1
  obtain ⟨b1, b2, pb, db1, db2⟩ := padStart2_digits h2
  cases g3 with
  | none =>
    cases g4 with
    | none =>
      show isCanonicalTime (padStart2 ['0','0'] ++ ':' :: padStart2 g1 ++
        ':' :: padStart2 g2 ++ '.' :: ['0','0','0']) = true
      rw [pa, pb, show padStart2 ['0','0'] = ['0','0'] from rfl]
      exact isCanonical_build (by decide) (by decide) da1 da2 db1 db2
        (by decide) (by decide) (by decide)
    | some gg =>
      obtain ⟨c1, c2, c3, pc, dc1, dc2, dc3⟩ := padEnd3_digits h4
      show isCanonicalTime (padStart2 ['0','0'] ++ ':' :: padStart2 g1 ++
        ':' :: padStart2 g2 ++ '.' :: padEnd3 gg) = true
      rw [pa, pb, pc, show padStart2 ['0','0'] = ['0','0'] from rfl]
      exact isCanonical_build (by decide) (by decide) da1 da2 db1 db2 dc1 dc2 dc3
  | some g3v =>
    obtain ⟨c1, c2, pc, dc1, dc2⟩ := padStart2_digits h3
    cases g4 with
    | none =>
      show isCanonicalTime (padStart2 g1 ++ ':' :: padStart2 g2 ++
        ':' :: padStart2 g3v ++ '.' :: ['0','0','0']) = true
      rw [pa, pb, pc]
      exact isCanonical_build da1 da2 db1 db2 dc1 dc2 (by decide) (by decide) (by decide)
    | some gg =>
      obtain ⟨e1, e2, e3, pe, de1, de2, de3⟩ := padEnd3_digits h4
      show isCanonicalTime (padStart2 g1 ++ ':' :: padStart2 g2 ++
        ':' :: padStart2 g3v ++ '.' :: padEnd3 gg) = true
      rw [pa, pb, pc, pe]
      exact isCanonical_build da1 da2 db1 db2 dc1 dc2 de1 de2 de3

theorem fmtTime_ne_nil (g : TimeGroups) : fmtTime g ≠ [] := by
  unfold fmtTime
  intro h
  exact absurd (List.append_eq_nil.mp h).2 (by simp)

theorem resolveTime_canonical (c : List Char) :
    ((resolveTime c).1 ≠ [] → isCanonicalTime (resolveTime c).1 = true) ∧
    ((resolveTime c).2 ≠ [] → isCanonicalTime (resolveTime c).2 = true) := by
  unfold resolveTime
  split
  case _ gl gr r h =>
    exact ⟨fun _ => fmtTime_canonical (timeRangeMatch_eq_some h).1,
           fun _ => fmtTime_canonical (timeRangeMatch_eq_some h).2⟩
  case _ h =>
    split
    case _ g r h2 =>
      exact ⟨fun _ => fmtTime_canonical (timeSingleMatch_eq_some h2),
             fun h' => absurd rfl h'⟩
    case _ h2 =>
      exact ⟨fun h' => absurd rfl h', fun h' => absurd rfl h'⟩

/-! ### Helper lemmas about trimming and line splitting -/

theorem dropWhile_head_false {p : Char → Bool} :
    ∀ {l : List Char} {c : Char} {m : List Char},
      l.dropWhile p = c :: m → p c = false := by
  intro l
  induction l with
  | nil => intro c m h; simp at h
  | cons a t ih =>
    intro c m h
    rw [List.dropWhile_cons] at h
    split at h
    · exact ih h
    · injection h with h1 _
      subst h1
      simp_all

theorem dropWhile_append_last {p : Char → Bool} {c : Char} (hc : p c = false) :
    ∀ x : List Char, ∃ w, List.dropWhile p (x ++ [c]) = w ++ [c] := by
  intro x
  induction x with
  | nil =>
    refine ⟨[], ?_⟩
    simp [List.dropWhile, hc]
  | cons a t ih =>
    by_cases hp : p a = true
    · obtain ⟨w, hw⟩ := ih
      exact ⟨w, by rw [List.cons_append, List.dropWhile_cons, if_pos hp, hw]⟩
    · exact ⟨a :: t, by rw [List.cons_append, List.dropWhile_cons, if_neg hp]⟩

theorem jsTrim_cons_of_not_space {c : Char} (hc : jsSpace c = false) (l : List Char) :
    ∃ m, jsTrim (c :: l) = c :: m := by
  unfold jsTrim
  rw [List.dropWhile_cons, if_neg (by simp [hc])]
  rw [List.reverse_cons]
  obtain ⟨w, hw⟩ := dropWhile_append_last hc l.reverse
  rw [hw]
  exact ⟨w.reverse, by simp⟩

theorem jsTrim_eq_nil_iff {l : List Char} :
    jsTrim l = [] ↔ l.dropWhile jsSpace = [] := by
  constructor
  · intro h
    cases hd : l.dropWhile jsSpace with
    | nil => rfl
    | cons c m =>
      have hc := dropWhile_head_false hd
      unfold jsTrim at h
      rw [hd, List.reverse_cons] at h
      obtain ⟨w, hw⟩ := dropWhile_append_last hc m.reverse
      rw [hw] at h
      simp at h
  · intro h
    unfold jsTrim
    rw [h]
    rfl

theorem jsTrim_eq_nil_iff_all {l : List Char} :
    jsTrim l = [] ↔ ∀ c ∈ l, jsSpace c = true := by
  rw [jsTrim_eq_nil_iff, List.dropWhile_eq_nil_iff]

theorem jsTrim_head_not_space {l : List Char} (h : jsTrim l ≠ []) :
    ∃ c m, jsTrim l = c :: m ∧ jsSpace c = false := by
  cases hd : l.dropWhile jsSpace with
  | nil => exact absurd (jsTrim_eq_nil_iff.mpr hd) h
  | cons c m =>
    have hc := dropWhile_head_false hd
    refine ⟨c, ?_⟩
    unfold jsTrim
    rw [hd, List.reverse_cons]
    obtain ⟨w, hw⟩ := dropWhile_append_last hc m.reverse
    rw [hw]
    exact ⟨w.reverse, by simp, hc⟩

theorem splitNl_ne_nil : ∀ t : List Char, splitNl t ≠ [] := by
  intro t
  induction t with
  | nil => simp [splitNl]
  | cons c r _ =>
    unfold splitNl
    split
    · simp
    · split <;> simp

theorem splitNl_all_space {t : List Char}
    (h : ∀ l ∈ splitNl t, ∀ c ∈ l, jsSpace c = true) :
    ∀ c ∈ t, jsSpace c = true := by
  induction t with
  | nil => intro c hc; simp at hc
  | cons a r ih =>
    intro c hc
    by_cases ha : a = '\n'
    · subst ha
      rw [show splitNl ('\n' :: r) = [] :: splitNl r from by simp [splitNl]] at h
      rcases List.mem_cons.mp hc with rfl | hcr
      · decide
      · exact ih (fun l hl => h l (List.mem_cons_of_mem _ hl)) c hcr
    · obtain ⟨l, ls, hls⟩ : ∃ l ls, splitNl r = l :: ls := by
        cases hsp : splitNl r with
        | nil => exact absurd hsp (splitNl_ne_nil r)
        | cons l ls => exact ⟨l, ls, rfl⟩
      have hsplit : splitNl (a :: r) = (a :: l) :: ls := by
        unfold splitNl
        rw [if_neg ha, hls]
      rw [hsplit] at h
      rcases List.mem_cons.mp hc with rfl | hcr
      · exact h (c :: l) (by simp) c (by simp)
      · refine ih ?_ c hcr
        intro l2 hl2
        rw [hls] at hl2
        rcases List.mem_cons.mp hl2 with rfl | hl2'
        · intro c2 hc2
          exact h (a :: l2) (by simp) c2 (List.mem_cons_of_mem _ hc2)
        · exact h l2 (List.mem_cons_of_mem _ hl2')

/-! ### Helper lemmas about the freeform accumulator -/

theorem appendLast_ne_nil :
    ∀ (acc : List TranscriptEntry) (l : List Char), appendLast acc l ≠ [] := by
  intro acc l
  match acc with
  | [] => simp [appendLast]
  | [e] => simp [appendLast]
  | e :: f :: es => simp [appendLast]

theorem appendLast_fields :
    ∀ (acc : List TranscriptEntry) (l : List Char), ∀ e' ∈ appendLast acc l,
      (∃ e ∈ acc, e'.speaker = e.speaker ∧ e'.startTime = e.startTime ∧
        e'.endTime = e.endTime) ∨
      (e'.speaker = [] ∧ e'.startTime = [] ∧ e'.endTime = []) := by
  intro acc
  induction acc with
  | nil =>
    intro l e' he'
    simp only [appendLast, List.mem_singleton] at he'
    subst he'
    exact Or.inr ⟨rfl, rfl, rfl⟩
  | cons e es ih =>
    intro l e' he'
    cases es with
    | nil =>
      simp only [appendLast, List.mem_singleton] at he'
      subst he'
      exact Or.inl ⟨e, by simp, rfl, rfl, rfl⟩
    | cons f es' =>
      rw [show appendLast (e :: f :: es') l = e :: appendLast (f :: es') l from rfl]
        at he'
      rcases List.mem_cons.mp he' with rfl | hmem
      · exact Or.inl ⟨e', by simp, rfl, rfl, rfl⟩
      · rcases ih l e' hmem with ⟨e2, he2, hf⟩ | hr
        · exact Or.inl ⟨e2, List.mem_cons_of_mem _ he2, hf⟩
        · exact Or.inr hr

theorem processTxtLine_ne_nil (acc : List TranscriptEntry) (line : List Char) :
    processTxtLine acc line ≠ [] := by
  unfold processTxtLine
  split
  · simp
  · exact appendLast_ne_nil _ _

theorem processTxtLine_inv {P : TranscriptEntry → Prop}
    {acc : List TranscriptEntry} {line : List Char}
    (hmod : ∀ (e : TranscriptEntry) (t : List Char),
      P e → P ⟨e.speaker, e.startTime, e.endTime, t⟩)
    (hfirst : ∀ t : List Char, P ⟨[], [], [], t⟩)
    (hnew : ∀ k : Nat, speakerSplit line = some k →
      P ⟨jsTrim (line.take k), (resolveTime (jsTrim (line.drop k))).1,
         (resolveTime (jsTrim (line.drop k))).2, stripTimes (jsTrim (line.drop k))⟩)
    (hacc : ∀ e ∈ acc, P e) :
    ∀ e ∈ processTxtLine acc line, P e := by
  intro e he
  unfold processTxtLine at he
  cases hs : speakerSplit line with
  | some k =>
    rw [hs] at he
    rcases List.mem_append.mp he with h1 | h2
    · exact hacc e h1
    · rw [List.mem_singleton] at h2
      subst h2
      exact hnew k hs
  | none =>
    rw [hs] at he
    rcases appendLast_fields acc line e he with ⟨e0, he0, hsp, hst, het⟩ | ⟨hsp, hst, het⟩
    · obtain ⟨a, b, c, d⟩ := e
      dsimp only at hsp hst het
      subst hsp; subst hst; subst het
      exact hmod e0 d (hacc e0 he0)
    · obtain ⟨a, b, c, d⟩ := e
      dsimp only at hsp hst het
      subst hsp; subst hst; subst het
      exact hfirst d

theorem foldTxt_inv {P : TranscriptEntry → Prop}
    (hmod : ∀ (e : TranscriptEntry) (t : List Char),
      P e → P ⟨e.speaker, e.startTime, e.endTime, t⟩)
    (hfirst : ∀ t : List Char, P ⟨[], [], [], t⟩) :
    ∀ (ls : List (List Char)) (acc : List TranscriptEntry),
      (∀ l ∈ ls, ∀ k : Nat, speakerSplit (jsTrim l) = some k →
        P ⟨jsTrim ((jsTrim l).take k),
           (resolveTime (jsTrim ((jsTrim l).drop k))).1,
           (resolveTime (jsTrim ((jsTrim l).drop k))).2,
           stripTimes (jsTrim ((jsTrim l).drop k))⟩) →
      (∀ e ∈ acc, P e) →
      ∀ e ∈ ls.foldl (fun acc l => processTxtLine acc (jsTrim l)) acc, P e := by
  intro ls
  induction ls with
  | nil =>
    intro acc _ hacc
    simpa using hacc
  | cons l ls ih =>
    intro acc hls hacc
    rw [List.foldl_cons]
    exact ih _ (fun l2 hl2 => hls l2 (List.mem_cons_of_mem _ hl2))
      (processTxtLine_inv hmod hfirst (hls l (by simp)) hacc)

/-! ### Helper lemmas about speaker extraction -/

theorem splitFrom_ge {p : List Char → Bool} {l : List Char} :
    ∀ {fuel k0 k : Nat}, splitFrom p l k0 fuel = some k → k0 ≤ k := by
  intro fuel
  induction fuel with
  | zero => intro k0 k h; simp [splitFrom] at h
  | succ f ih =>
    intro k0 k h
    unfold splitFrom at h
    split at h
    · injection h with h1
      omega
    · have := ih h
      omega

theorem speakerSplit_pos {l : List Char} {k : Nat}
    (h : speakerSplit l = some k) : 1 ≤ k := by
  unfold speakerSplit at h
  rcases orElse_eq_some_split h with h1 | ⟨-, h2⟩
  · exact splitFrom_ge h1
  · exact splitFrom_ge h2

theorem speaker_take_ne_nil {l : List Char} {k : Nat}
    (hne : jsTrim l ≠ []) (hk : 1 ≤ k) :
    jsTrim ((jsTrim l).take k) ≠ [] := by
  obtain ⟨c, m, heq, hc⟩ := jsTrim_head_not_space hne
  rw [heq]
  cases k with
  | zero => omega
  | succ j =>
    rw [List.take_succ_cons]
    obtain ⟨m', hm'⟩ := jsTrim_cons_of_not_space hc (m.take j)
    rw [hm']
    simp

/-! ### Helper lemmas for the text-concatenation property -/

theorem concatTexts_appendLast (acc : List TranscriptEntry) (l : List Char) :
    concatTexts (appendLast acc l) = concatTexts acc ++ l := by
  induction acc with
  | nil => simp [appendLast, concatTexts]
  | cons e es ih =>
    cases es with
    | nil => simp [appendLast, concatTexts]
    | cons f es' =>
      rw [show appendLast (e :: f :: es') l = e :: appendLast (f :: es') l from rfl]
      simp only [concatTexts, List.map_cons, List.flatten_cons] at ih ⊢
      rw [ih]
      simp [List.append_assoc]

theorem foldTxt_concat :
    ∀ (ls : List (List Char)) (acc : List TranscriptEntry),
      (∀ l ∈ ls, speakerSplit (jsTrim l) = none) →
      concatTexts (ls.foldl (fun acc l => processTxtLine acc (jsTrim l)) acc) =
        concatTexts acc ++ (ls.map jsTrim).flatten := by
  intro ls
  induction ls with
  | nil => intro acc _; simp
  | cons l ls ih =>
    intro acc hls
    rw [List.foldl_cons, List.map_cons, List.flatten_cons,
      ih _ (fun l2 hl2 => hls l2 (List.mem_cons_of_mem _ hl2))]
    have hstep : processTxtLine acc (jsTrim l) = appendLast acc (jsTrim l) := by
      unfold processTxtLine
      rw [hls l (by simp)]
    rw [hstep, concatTexts_appendLast, List.append_assoc]

theorem foldTxt_ne_nil :
    ∀ (ls : List (List Char)) (acc : List TranscriptEntry), acc ≠ [] →
      ls.foldl (fun acc l => processTxtLine acc (jsTrim l)) acc ≠ [] := by
  intro ls
  induction ls with
  | nil => intro acc h; simpa using h
  | cons l ls ih =>
    intro acc _
    rw [List.foldl_cons]
    exact ih _ (processTxtLine_ne_nil _ _)

/-! ### Helper lemmas for the empty-speaker position invariant -/

theorem appendLast_map_speaker :
    ∀ (acc : List TranscriptEntry), acc ≠ [] → ∀ l : List Char,
      (appendLast acc l).map TranscriptEntry.speaker =
        acc.map TranscriptEntry.speaker := by
  intro acc
  induction acc with
  | nil => intro h; exact absurd rfl h
  | cons e es ih =>
    intro _ l
    cases es with
    | nil => rfl
    | cons f es' =>
      rw [show appendLast (e :: f :: es') l = e :: appendLast (f :: es') l from rfl]
      rw [List.map_cons, List.map_cons, ih (by simp) l]

theorem tail_speakers_step {acc : List TranscriptEntry} {l : List Char}
    (hl : jsTrim l ≠ [])
    (hacc : ∀ s ∈ (acc.map TranscriptEntry.speaker).tail, s ≠ []) :
    ∀ s ∈ ((processTxtLine acc (jsTrim l)).map TranscriptEntry.speaker).tail,
      s ≠ [] := by
  unfold processTxtLine
  cases hs : speakerSplit (jsTrim l) with
  | some k =>
    intro s hsmem
    rw [List.map_append] at hsmem
    cases hmap : acc.map TranscriptEntry.speaker with
    | nil =>
      rw [hmap] at hsmem
      simp at hsmem
    | cons s0 srest =>
      rw [hmap, List.tail_append_of_ne_nil (by simp)] at hsmem
      rcases List.mem_append.mp hsmem with h1 | h2
      · exact hacc s (by rw [hmap]; exact h1)
      · simp only [List.map_cons, List.map_nil, List.mem_singleton] at h2
        subst h2
        exact speaker_take_ne_nil hl (speakerSplit_pos hs)
  | none =>
    cases hacc0 : acc with
    | nil =>
      intro s hsmem
      simp [appendLast] at hsmem
    | cons e0 es0 =>
      rw [appendLast_map_speaker _ (by simp)]
      rw [hacc0] at hacc
      exact hacc

theorem foldTxt_tail_speakers :
    ∀ (ls : List (List Char)) (acc : List TranscriptEntry),
      (∀ l ∈ ls, jsTrim l ≠ []) →
      (∀ s ∈ (acc.map TranscriptEntry.speaker).tail, s ≠ []) →
      ∀ s ∈ ((ls.foldl (fun acc l => processTxtLine acc (jsTrim l)) acc).map
        TranscriptEntry.speaker).tail, s ≠ [] := by
  intro ls
  induction ls with
  | nil => intro acc _ hacc; simpa using hacc
  | cons l ls ih =>
    intro acc hls hacc
    rw [List.foldl_cons]
    exact ih _ (fun l2 hl2 => hls l2 (List.mem_cons_of_mem _ hl2))
      (tail_speakers_step (hls l (by simp)) hacc)

/-! ### Helper lemmas about the caption parser -/

theorem vTagAt_ne_nil {s g r : List Char} (h : vTagAt s = some (g, r)) :
    g ≠ [] := by
  unfold vTagAt at h
  repeat' split at h
  all_goals first
    | exact Option.noConfusion h
    | skip
  · rename_i hrun x r4 heq
    injection h with h2
    injection h2 with h3 h4
    rw [← h3]
    intro hnil
    rw [hnil] at hrun
    simp at hrun
  · rename_i x r4 heq hlen
    injection h with h2
    injection h2 with h3 h4
    rw [← h3]
    intro hnil
    have hlen2 := congrArg List.length hnil
    simp only [List.length_drop, List.length_nil] at hlen2
    omega

theorem findVTag_ne_nil : ∀ {s g : List Char}, findVTag s = some g → g ≠ [] := by
  intro s
  induction s with
  | nil => intro g h; simp [findVTag] at h
  | cons c rest ih =>
    intro g h
    unfold findVTag at h
    split at h
    · next g' r' heq =>
      injection h with h1
      subst h1
      exact vTagAt_ne_nil heq
    · exact ih h

theorem cueEntryOf_speaker_ne_nil (st en cl : List Char) :
    (cueEntryOf st en cl).speaker ≠ [] := by
  unfold cueEntryOf
  split
  · next g heq => exact findVTag_ne_nil heq
  · simp

theorem cueEntryOf_startTime (st en cl : List Char) :
    (cueEntryOf st en cl).startTime = st := by
  unfold cueEntryOf
  split <;> rfl

theorem vttStamp_ne_nil : ∀ {s g r : List Char}, vttStamp s = some (g, r) → g ≠ [] := by
  intro s g r h
  simp only [vttStamp, digitRun] at h
  repeat' split at h
  all_goals first
    | exact Option.noConfusion h
    | skip
  injection h with h2
  injection h2 with h3 h4
  rw [← h3]
  intro hnil
  exact absurd (List.append_eq_nil.mp hnil).2 (by simp)

theorem vttTimePair_ne_nil {s g1 g2 : List Char}
    (h : vttTimePair s = some (g1, g2)) : g1 ≠ [] ∧ g2 ≠ [] := by
  unfold vttTimePair at h
  repeat' split at h
  all_goals first
    | exact Option.noConfusion h
    | skip
  injection h with h2
  injection h2 with h3 h4
  rw [← h3, ← h4]
  refine ⟨?_, ?_⟩ <;> solve_by_elim [vttStamp_ne_nil]

theorem searchVttTime_ne_nil :
    ∀ {s g1 g2 : List Char}, searchVttTime s = some (g1, g2) → g1 ≠ [] ∧ g2 ≠ [] := by
  intro s
  induction s with
  | nil => intro g1 g2 h; simp [searchVttTime] at h
  | cons c rest ih =>
    intro g1 g2 h
    unfold searchVttTime at h
    split at h
    · rename_i p heq
      obtain ⟨a, b⟩ := p
      simp only [Option.some.injEq, Prod.mk.injEq] at h
      obtain ⟨rfl, rfl⟩ := h
      exact vttTimePair_ne_nil heq
    · exact ih h

theorem mergePush_inv {P : TranscriptEntry → Prop}
    (hmod : ∀ (e : TranscriptEntry) (en t : List Char),
      P e → P ⟨e.speaker, e.startTime, en, t⟩)
    {acc : List TranscriptEntry} {e0 : TranscriptEntry}
    (hacc : ∀ e ∈ acc, P e) (he0 : P e0) :
    ∀ e ∈ mergePush acc e0, P e := by
  intro e he
  unfold mergePush at he
  split at he
  · next last heq =>
    split at he
    · rcases List.mem_append.mp he with h1 | h2
      · exact hacc e (List.dropLast_subset _ h1)
      · rw [List.mem_singleton] at h2
        subst h2
        exact hmod last e0.endTime _ (hacc last (List.mem_of_getLast?_eq_some heq))
    · rcases List.mem_append.mp he with h1 | h2
      · exact hacc e h1
      · rw [List.mem_singleton] at h2
        subst h2
        exact he0
  · rcases List.mem_append.mp he with h1 | h2
    · exact hacc e h1
    · rw [List.mem_singleton] at h2
      subst h2
      exact he0

theorem vttLoop_inv {P : TranscriptEntry → Prop}
    (hmod : ∀ (e : TranscriptEntry) (en t : List Char),
      P e → P ⟨e.speaker, e.startTime, en, t⟩)
    (hcue : ∀ line l2 st en : List Char,
      searchVttTime line = some (st, en) → P (cueEntryOf st en l2)) :
    ∀ (lines : List (List Char)) (acc : List TranscriptEntry),
      (∀ e ∈ acc, P e) → ∀ e ∈ vttLoop lines acc, P e := by
  intro lines acc
  induction lines, acc using vttLoop.induct with
  | case1 acc =>
    intro hacc
    simpa [vttLoop] using hacc
  | case2 head acc =>
    intro hacc
    simpa [vttLoop] using hacc
  | case3 l1 l2 rest acc line harrow st en hsearch ih =>
    intro hacc
    have hstep : vttLoop (l1 :: l2 :: rest) acc =
        vttLoop rest (mergePush acc (cueEntryOf st en (jsTrim l2))) := by
      simp only [vttLoop, harrow, hsearch, if_true]
    rw [hstep]
    exact ih (mergePush_inv hmod hacc (hcue (jsTrim l1) (jsTrim l2) st en hsearch))
  | case4 l1 l2 rest acc line harrow hsearch ih =>
    intro hacc
    have hstep : vttLoop (l1 :: l2 :: rest) acc = vttLoop (l2 :: rest) acc := by
      simp only [vttLoop, harrow, hsearch, if_true]
    rw [hstep]
    exact ih hacc
  | case5 l1 l2 rest acc line harrow ih =>
    intro hacc
    have hstep : vttLoop (l1 :: l2 :: rest) acc = vttLoop (l2 :: rest) acc := by
      simp only [vttLoop]
      rw [if_neg harrow]
    rw [hstep]
    exact ih hacc

theorem resolveTime_end_imp_start (c : List Char) :
    (resolveTime c).2 ≠ [] → (resolveTime c).1 ≠ [] := by
  unfold resolveTime
  split
  · exact fun _ => fmtTime_ne_nil _
  · split
    · exact fun h => absurd rfl h
    · exact fun h => absurd rfl h

theorem appendLast_concat (init : List TranscriptEntry) (last : TranscriptEntry)
    (l : List Char) :
    appendLast (init ++ [last]) l =
      init ++ [⟨last.speaker, last.startTime, last.endTime, last.text ++ l⟩] := by
  induction init with
  | nil => rfl
  | cons e init2 ih =>
    rw [List.cons_append]
    obtain ⟨x, xs, hx⟩ := List.exists_cons_of_ne_nil (l := init2 ++ [last]) (by simp)
    rw [hx, show appendLast (e :: x :: xs) l = e :: appendLast (x :: xs) l from rfl,
      ← hx, ih, List.cons_append]

/-! ### Claim theorems -/

/-- C1 (amended): every non-empty `startTime` and `endTime` field produced
by the freeform / word-processor parser is exactly the 12-character
canonical string `HH:MM:SS.mmm`; the caption parser instead copies the
matched timestamp substrings of the cue line verbatim (digit runs of any
length), so its fields are canonical only when the source file is already
formatted that way. -/
theorem c1_txt_times_canonical :
    ∀ (text : List Char), ∀ e ∈ parseTxtFile text,
      (e.startTime ≠ [] → isCanonicalTime e.startTime = true) ∧
      (e.endTime ≠ [] → isCanonicalTime e.endTime = true) := by
  intro text e he
  unfold parseTxtFile at he
  refine foldTxt_inv (P := fun e =>
      (e.startTime ≠ [] → isCanonicalTime e.startTime = true) ∧
      (e.endTime ≠ [] → isCanonicalTime e.endTime = true))
    (fun e t h => h) (fun t => ⟨fun h => absurd rfl h, fun h => absurd rfl h⟩)
    _ [] (fun l _ k _ => resolveTime_canonical _) (by simp) e he

/-- C1 witness: a freeform line with a time yields a canonical start time. -/
theorem c1_witness :
    ((⟨("a").data, ("00:01:02.000").data, [], ("x").data⟩ : TranscriptEntry).startTime ≠ [] →
      isCanonicalTime
        (⟨("a").data, ("00:01:02.000").data, [], ("x").data⟩ : TranscriptEntry).startTime = true) ∧
    ((⟨("a").data, ("00:01:02.000").data, [], ("x").data⟩ : TranscriptEntry).endTime ≠ [] →
      isCanonicalTime
        (⟨("a").data, ("00:01:02.000").data, [], ("x").data⟩ : TranscriptEntry).endTime = true) :=
  c1_txt_times_canonical (("a 1:2 x").data)
    ⟨("a").data, ("00:01:02.000").data, [], ("x").data⟩ (by decide)

/-- C1 counterexample: the caption parser copies a short `0:0:0.0`
timestamp verbatim, producing a non-empty `startTime` that is not the
12-character canonical string. -/
theorem c1_cex :
    ∃ e ∈ parseVttFile (("WEBVTT\n0:0:0.0 --> 0:0:1.0\nhello").data),
      e.startTime ≠ [] ∧ isCanonicalTime e.startTime = false := by
  exact ⟨⟨("不明").data, ("0:0:0.0").data, ("0:0:1.0").data, ("hello").data⟩,
    by decide, by decide, by decide⟩

/-- C2 counterexample: on the line `田中：おはよう` the parser removes only
the speaker label (group 1), not the full-width-colon separator, so the
entry's text is `：おはよう` rather than the claimed `おはよう`. -/
theorem c2_cex :
    parseTxtFile (("田中：おはよう").data) =
      [⟨("田中").data, [], [], ("：おはよう").data⟩] ∧
    ("：おはよう").data ≠ ("おはよう").data := by
  exact ⟨by decide, by decide⟩

/-- C2 (amended): the entry's text is the content after the speaker label —
the separator is not removed, only whitespace is trimmed — with a matched
leading time expression stripped; `田中 5:30 こんにちは` yields
(`田中`, `00:05:30.000`, `こんにちは`) as claimed (the whitespace separator
is trimmed away), but `田中：おはよう` yields text `：おはよう`, and the
freeform input [`田中: こんにちは`, `元気ですか`] yields one entry with
text `: こんにちは元気ですか`. -/
theorem c2_split_text :
    (∀ (acc : List TranscriptEntry) (line : List Char) (k : Nat),
      speakerSplit line = some k →
      processTxtLine acc line =
        acc ++ [⟨jsTrim (line.take k), (resolveTime (jsTrim (line.drop k))).1,
                 (resolveTime (jsTrim (line.drop k))).2,
                 stripTimes (jsTrim (line.drop k))⟩]) ∧
    parseTxtFile (("田中 5:30 こんにちは").data) =
      [⟨("田中").data, ("00:05:30.000").data, [], ("こんにちは").data⟩] ∧
    parseTxtFile (("田中：おはよう").data) =
      [⟨("田中").data, [], [], ("：おはよう").data⟩] ∧
    parseTxtFile (("田中: こんにちは\n元気ですか").data) =
      [⟨("田中").data, [], [], (": こんにちは元気ですか").data⟩] := by
  refine ⟨?_, by decide, by decide, by decide⟩
  intro acc line k h
  unfold processTxtLine
  rw [h]

/-- C2 witness. -/
theorem c2_witness :
    processTxtLine [] (("田中：おはよう").data) =
      [] ++ [⟨jsTrim ((("田中：おはよう").data).take 2),
              (resolveTime (jsTrim ((("田中：おはよう").data).drop 2))).1,
              (resolveTime (jsTrim ((("田中：おはよう").data).drop 2))).2,
              stripTimes (jsTrim ((("田中：おはよう").data).drop 2))⟩] :=
  c2_split_text.1 [] (("田中：おはよう").data) 2 (by decide)

/-- C3 counterexample: the caption parser returns no utterances at all for
the non-blank unstructured input `hello` (no cue marker, everything is
skipped as header). -/
theorem c3_cex :
    jsTrim (("hello").data) ≠ [] ∧ parseVttFile (("hello").data) = [] := by
  exact ⟨by decide, by decide⟩

/-- C3 (amended): the freeform parser always produces at least one
utterance when the input is non-empty after trimming; the caption parser
may produce none. -/
theorem c3_txt_nonempty :
    ∀ text : List Char, jsTrim text ≠ [] → 1 ≤ (parseTxtFile text).length := by
  intro text htext
  have hlines : ((splitNl text).filter (fun l => !(jsTrim l).isEmpty)) ≠ [] := by
    intro hnil
    apply htext
    rw [jsTrim_eq_nil_iff_all]
    apply splitNl_all_space
    intro l hl c hc
    have h1 := List.filter_eq_nil_iff.mp hnil l hl
    have h2 : jsTrim l = [] := by simpa using h1
    exact jsTrim_eq_nil_iff_all.mp h2 c hc
  obtain ⟨l0, ls0, heq⟩ := List.exists_cons_of_ne_nil hlines
  unfold parseTxtFile
  rw [heq, List.foldl_cons]
  exact List.length_pos.mpr (foldTxt_ne_nil ls0 _ (processTxtLine_ne_nil [] (jsTrim l0)))

/-- C3 witness. -/
theorem c3_witness : 1 ≤ (parseTxtFile (("hello").data)).length :=
  c3_txt_nonempty (("hello").data) (by decide)

/-- C4: in the time normalization of `parseTxtFile`, field assignment is by
component count — with no third captured group the two groups are
minute:second with hour `00`, with a third group they are
hour:minute:second; milliseconds default to `000` and short groups are
right-padded; `5:30` → `00:05:30.000`, `1:5:30` → `01:05:30.000`,
`1:2:3.4` → `01:02:03.400`. -/
theorem c4_component_count :
    (∀ (g1 g2 : List Char) (g4 : Option (List Char)),
      fmtTime (g1, g2, none, g4) =
        '0' :: '0' :: ':' :: (padStart2 g1 ++ ':' :: padStart2 g2 ++ '.' ::
          (match g4 with | some g => padEnd3 g | none => ['0', '0', '0']))) ∧
    (∀ (g1 g2 g3 : List Char) (g4 : Option (List Char)),
      fmtTime (g1, g2, some g3, g4) =
        padStart2 g1 ++ ':' :: padStart2 g2 ++ ':' :: padStart2 g3 ++ '.' ::
          (match g4 with | some g => padEnd3 g | none => ['0', '0', '0'])) ∧
    resolveTime (("5:30").data) = ((("00:05:30.000").data), []) ∧
    resolveTime (("1:5:30").data) = ((("01:05:30.000").data), []) ∧
    resolveTime (("1:2:3.4").data) = ((("01:02:03.400").data), []) := by
  refine ⟨?_, ?_, by decide, by decide, by decide⟩
  · intro g1 g2 g4
    rfl
  · intro g1 g2 g3 g4
    rfl

/-- C5: `extractDate` is exactly the ordered first-match-wins cascade of
the ten date patterns (hyphen, underscore, dot, 8 digits, kanji long form,
6 digits with `20` prefixed, then the four year-less forms with the current
year substituted), returning `none` — never throwing — when no pattern
matches; `minutes_2024-03-05_v2.txt` → `2024-03-05`, `2024_03_05` →
`2024-03-05`, `03-05notes.txt` → `{currentYear}-03-05`, `no-date-here.txt`
→ no match. -/
theorem c5_extractDate_cascade :
    (∀ (y : Nat) (f : List Char), extractDate y f =
      (((searchAt (ymdSepAt '-') f).map (fun p => fmtDate p.1 p.2.1 p.2.2)) <|>
       ((searchAt (ymdSepAt '_') f).map (fun p => fmtDate p.1 p.2.1 p.2.2)) <|>
       ((searchAt (ymdSepAt '.') f).map (fun p => fmtDate p.1 p.2.1 p.2.2)) <|>
       ((searchAt d8At f).map (fun p => p.1 ++ '-' :: p.2.1 ++ '-' :: p.2.2)) <|>
       ((searchAt kanjiYmdAt f).map (fun p => fmtDate p.1 p.2.1 p.2.2)) <|>
       ((searchAt d6At f).map (fun p => '2' :: '0' :: p.1 ++ '-' :: p.2.1 ++ '-' :: p.2.2)) <|>
       ((searchAt (mdSepAt '-') f).map (fun p => fmtDateY y p.1 p.2)) <|>
       ((searchAt (mdSepAt '_') f).map (fun p => fmtDateY y p.1 p.2)) <|>
       ((searchAt (mdSepAt '.') f).map (fun p => fmtDateY y p.1 p.2)) <|>
       ((searchAt kanjiMdAt f).map (fun p => fmtDateY y p.1 p.2)))) ∧
    (∀ y : Nat, extractDate y (("minutes_2024-03-05_v2.txt").data) =
      some (("2024-03-05").data)) ∧
    (∀ y : Nat, extractDate y (("2024_03_05").data) = some (("2024-03-05").data)) ∧
    (∀ y : Nat, extractDate y (("03-05notes.txt").data) =
      some ((toString y).data ++ ("-03-05").data)) ∧
    (∀ y : Nat, extractDate y (("no-date-here.txt").data) = none) := by
  refine ⟨?_, fun y => rfl, fun y => rfl, ?_, fun y => rfl⟩
  case refine_2 =>
    intro y
    rw [show extractDate y (("03-05notes.txt").data) =
      some (fmtDateY y (['0', '3']) (['0', '5'])) from rfl]
    unfold fmtDateY
    rw [List.append_assoc]
    exact congrArg (fun t => some ((toString y).data ++ t))
      (show ('-' :: padStart2 (['0', '3'])) ++ ('-' :: padStart2 (['0', '5'])) =
        ("-03-05").data by decide)
  intro y f
  unfold extractDate
  cases h1 : searchAt (ymdSepAt '-') f with
  | some p => obtain ⟨a, b, c⟩ := p; rfl
  | none =>
  cases h2 : searchAt (ymdSepAt '_') f with
  | some p => obtain ⟨a, b, c⟩ := p; rfl
  | none =>
  cases h3 : searchAt (ymdSepAt '.') f with
  | some p => obtain ⟨a, b, c⟩ := p; rfl
  | none =>
  cases h4 : searchAt d8At f with
  | some p => obtain ⟨a, b, c⟩ := p; rfl
  | none =>
  cases h5 : searchAt kanjiYmdAt f with
  | some p => obtain ⟨a, b, c⟩ := p; rfl
  | none =>
  cases h6 : searchAt d6At f with
  | some p => obtain ⟨a, b, c⟩ := p; rfl
  | none =>
  cases h7 : searchAt (mdSepAt '-') f with
  | some p => obtain ⟨a, b⟩ := p; rfl
  | none =>
  cases h8 : searchAt (mdSepAt '_') f with
  | some p => obtain ⟨a, b⟩ := p; rfl
  | none =>
  cases h9 : searchAt (mdSepAt '.') f with
  | some p => obtain ⟨a, b⟩ := p; rfl
  | none =>
  cases h10 : searchAt kanjiMdAt f with
  | some p => obtain ⟨a, b⟩ := p; rfl
  | none => rfl

/-- C6: when the immediately preceding entry carries the same speaker, the
caption parser extends it — new end time is the second cue's end, text is
the concatenation with no separator — instead of pushing a second entry;
a two-cue same-speaker file parses to a single merged utterance. -/
theorem c6_merge :
    (∀ (init : List TranscriptEntry) (last e : TranscriptEntry),
      last.speaker = e.speaker →
      mergePush (init ++ [last]) e =
        init ++ [⟨last.speaker, last.startTime, e.endTime, last.text ++ e.text⟩]) ∧
    parseVttFile (("WEBVTT\n\n00:00:00.000 --> 00:00:01.000\n<v Alice> Hi\n\n00:00:01.000 --> 00:00:02.000\n<v Alice> Bye").data) =
      [⟨("Alice").data, ("00:00:00.000").data, ("00:00:02.000").data, ("HiBye").data⟩] := by
  refine ⟨?_, by decide⟩
  intro init last e h
  unfold mergePush
  rw [List.getLast?_concat]
  dsimp only
  rw [if_pos h, List.dropLast_concat]

/-- C6 witness. -/
theorem c6_witness :
    mergePush ([] ++ [⟨("A").data, ("1").data, ("2").data, ("x").data⟩])
        ⟨("A").data, ("3").data, ("4").data, ("y").data⟩ =
      [] ++ [⟨("A").data, ("1").data, ("4").data, ("x").data ++ ("y").data⟩] :=
  c6_merge.1 [] ⟨("A").data, ("1").data, ("2").data, ("x").data⟩
    ⟨("A").data, ("3").data, ("4").data, ("y").data⟩ (by decide)

/-- C7: an utterance with an empty speaker can only be the very first entry
of a parsed document: in both parsers every entry after the first has a
non-empty speaker (later non-attributable lines are folded into the
preceding entry's text instead of creating new entries). -/
theorem c7_empty_speaker_first :
    ∀ text : List Char,
      (∀ s ∈ ((parseTxtFile text).map TranscriptEntry.speaker).tail, s ≠ []) ∧
      (∀ s ∈ ((parseVttFile text).map TranscriptEntry.speaker).tail, s ≠ []) := by
  intro text
  constructor
  · unfold parseTxtFile
    refine foldTxt_tail_speakers _ [] ?_ (by simp)
    intro l hl
    have h1 := (List.mem_filter.mp hl).2
    simpa using h1
  · have hall : ∀ e ∈ parseVttFile text, e.speaker ≠ [] := by
      unfold parseVttFile
      exact vttLoop_inv (P := fun e => e.speaker ≠ [])
        (fun e en t h => h)
        (fun line l2 st en _ => cueEntryOf_speaker_ne_nil st en l2)
        _ [] (by simp)
    intro s hs
    obtain ⟨e, he, rfl⟩ := List.mem_map.mp (List.mem_of_mem_tail hs)
    exact hall e he

/-- C7 witness. -/
theorem c7_witness : ("b").data ≠ [] ∧ ("Bob").data ≠ [] :=
  ⟨(c7_empty_speaker_first (("a: x\nb: y").data)).1 (("b").data) (by decide),
   (c7_empty_speaker_first
     (("WEBVTT\n0:0:0.0 --> 0:0:1.0\n<v Al> h\n0:0:2.0 --> 0:0:3.0\n<v Bob> i").data)).2
     (("Bob").data) (by decide)⟩

/-- C8: folding an unattributed continuation line changes only the last
entry's text, by appending the line; the last entry's speaker, start and
end times, and all earlier entries are unchanged. -/
theorem c8_continuation_frame :
    ∀ (init : List TranscriptEntry) (last : TranscriptEntry) (line : List Char),
      speakerSplit line = none →
      processTxtLine (init ++ [last]) line =
        init ++ [⟨last.speaker, last.startTime, last.endTime, last.text ++ line⟩] := by
  intro init last line h
  unfold processTxtLine
  rw [h]
  exact appendLast_concat init last line

/-- C8 witness. -/
theorem c8_witness :
    processTxtLine ([] ++ [⟨("田中").data, [], [], ("や").data⟩]) (("元気ですか").data) =
      [] ++ [⟨("田中").data, [], [], ("や").data ++ ("元気ですか").data⟩] :=
  c8_continuation_frame [] ⟨("田中").data, [], [], ("や").data⟩
    (("元気ですか").data) (by decide)

/-- C9 counterexample: for the document `a\nb` — no blank lines, no line
matching a speaker pattern, no time matched — the concatenated texts are
`ab`, while the original document with blank lines removed is still
`a\nb`; the parse does not preserve the line break. -/
theorem c9_cex :
    (∀ l ∈ splitNl (("a\nb").data), jsTrim l ≠ []) ∧
    (∀ l ∈ splitNl (("a\nb").data), speakerSplit (jsTrim l) = none) ∧
    concatTexts (parseTxtFile (("a\nb").data)) ≠
      specBlankLinesRemoved (("a\nb").data) := by
  exact ⟨by decide, by decide, by decide⟩

/-- C9 (amended): when no trimmed line matches a speaker pattern, the
concatenation of all text fields equals the concatenation of the trimmed
non-blank lines in order — the original document with blank lines, line
breaks and per-line surrounding whitespace removed. -/
theorem c9_concat_texts :
    ∀ text : List Char,
      (∀ l ∈ splitNl text, speakerSplit (jsTrim l) = none) →
      concatTexts (parseTxtFile text) =
        (((splitNl text).filter (fun l => !(jsTrim l).isEmpty)).map jsTrim).flatten := by
  intro text h
  unfold parseTxtFile
  rw [foldTxt_concat _ [] (fun l hl => h l (List.mem_filter.mp hl).1)]
  rfl

/-- C9 witness. -/
theorem c9_witness :
    concatTexts (parseTxtFile (("ab\ncd").data)) =
      (((splitNl (("ab\ncd").data)).filter (fun l => !(jsTrim l).isEmpty)).map
        jsTrim).flatten :=
  c9_concat_texts (("ab\ncd").data) (by decide)

/-- C10: in both parsers, an entry with a non-empty end time always has a
non-empty start time (an end bound is only ever set together with, or
after, a start bound). -/
theorem c10_end_implies_start :
    ∀ text : List Char,
      (∀ e ∈ parseTxtFile text, e.endTime ≠ [] → e.startTime ≠ []) ∧
      (∀ e ∈ parseVttFile text, e.endTime ≠ [] → e.startTime ≠ []) := by
  intro text
  constructor
  · unfold parseTxtFile
    exact foldTxt_inv (P := fun e => e.endTime ≠ [] → e.startTime ≠ [])
      (fun e t h => h) (fun t h => absurd rfl h)
      _ [] (fun l _ k _ => resolveTime_end_imp_start _) (by simp)
  · have hstart : ∀ e ∈ parseVttFile text, e.startTime ≠ [] := by
      unfold parseVttFile
      refine vttLoop_inv (P := fun e => e.startTime ≠ [])
        (fun e en t h => h) ?_ _ [] (by simp)
      intro line l2 st en hsearch
      rw [cueEntryOf_startTime]
      exact (searchVttTime_ne_nil hsearch).1
    exact fun e he _ => hstart e he

/-- C10 witness. -/
theorem c10_witness :
    (⟨("a").data, ("00:01:02.000").data, ("00:03:04.000").data,
      ("x").data⟩ : TranscriptEntry).startTime ≠ [] :=
  (c10_end_implies_start (("a 1:2 - 3:4 x").data)).1
    ⟨("a").data, ("00:01:02.000").data, ("00:03:04.000").data, ("x").data⟩
    (by decide) (by decide)

end MeetingSummarizer
